import Mathlib

/-!
# Verification of the gdb-mcp core against its specification

This development shallowly embeds the core pure logic of the gdb-mcp
repository (command policy validation, output normalization, prompt-
synchronized command execution, crash-report collection, core loading,
and the textual parsers) as executable Lean definitions, and proves or
refutes the specified properties about them.

Python strings are modelled as Lean `String` (a wrapper around
`List Char`); character-level helpers mirror the Python string methods
used by the source (`strip`, `lower`, `startswith`, `splitlines`,
`replace`, `rstrip`).  The whitespace and line-break character classes
cover the ASCII/Latin-1 and the common Unicode members used by CPython.
-/

/-- Characters treated as whitespace by Python `str.strip()` (ASCII /
Latin-1 members plus the line/paragraph separators). -/
def isPySpace (c : Char) : Bool :=
  c = ' ' || c = '\t' || c = '\n' || c = '\r' || c = '\x0b' || c = '\x0c' ||
  c = '\x1c' || c = '\x1d' || c = '\x1e' || c = '\x1f' || c = '\x85' ||
  c = ' ' || c = ' '

/-- `str.lstrip()` on the underlying character list. -/
def lstripChars (s : List Char) : List Char :=
  s.dropWhile isPySpace

/-- `str.rstrip()` on the underlying character list: drop the maximal
all-whitespace suffix. -/
def rstripChars : List Char → List Char
| [] => []
| c :: rest =>
  match rstripChars rest with
  | [] => if isPySpace c then [] else [c]
  | r => c :: r

/-- `str.strip()` on the underlying character list. -/
def stripChars (s : List Char) : List Char :=
  rstripChars (lstripChars s)

/-- Python `str.strip()`. -/
def pyStrip (s : String) : String :=
  ⟨stripChars s.data⟩

/-- Python `str.rstrip()`. -/
def pyRstrip (s : String) : String :=
  ⟨rstripChars s.data⟩

/-- Python `str.lower()` (ASCII case folding). -/
def pyLower (s : String) : String :=
  ⟨s.data.map Char.toLower⟩

/-- Python `s.startswith(q)`. -/
def pyStartswith (s q : String) : Bool :=
  q.data.isPrefixOf s.data

/-!
## CommandPolicy (src/gdb_mcp/settings.py)

`CommandPolicy.validate` raises `ValueError` or `PermissionError`; we
model the raised exception as the error side of an `Except`.
-/

/-- Default deny prefixes from `settings.py`. -/
def DEFAULT_COMMAND_DENY_PREFIXES : List String :=
  ["shell", "!", "python", "pi", "source", "define", "document"]

/-- Default dangerous prefixes from `settings.py`. -/
def DEFAULT_COMMAND_DANGEROUS_PREFIXES : List String :=
  ["call", "jump", "return", "signal", "set \x7b", "set *"]

/-- The exception kinds `CommandPolicy.validate` can raise. -/
inductive PolicyError where
  | valueError (msg : String)
  | permissionError (msg : String)
deriving DecidableEq, Repr

/-- The `CommandPolicy` dataclass from `settings.py`. -/
structure CommandPolicy where
  mode : String
  allow_prefixes : List String
  deny_prefixes : List String
  dangerous_prefixes : List String

/-- The unconditional dangerous-prefix check at the end of
`CommandPolicy.validate` (the final `if any(...)` of the Python body). -/
def dangerousCheck (p : CommandPolicy) (command normalized : String) :
    Except PolicyError Unit :=
  if p.dangerous_prefixes.any (fun q => pyStartswith normalized q) then
    .error (.permissionError ("dangerous command is disabled by policy: " ++ command))
  else
    .ok ()

/-- `CommandPolicy.validate` from `settings.py`:
strip/lower the command, reject empty input, apply the mode-specific
allow/deny check, reject unknown modes, then apply the unconditional
dangerous-prefix check. -/
def CommandPolicy.validate (p : CommandPolicy) (command : String) :
    Except PolicyError Unit :=
  let normalized := pyLower (pyStrip command)
  if normalized = "" then
    .error (.valueError "command must not be empty")
  else if p.mode = "allowlist" then
    if p.allow_prefixes.any (fun q => pyStartswith normalized q) then
      dangerousCheck p command normalized
    else
      .error (.permissionError
        ("command blocked by allowlist policy: " ++ command ++
          ". Allowed prefixes: " ++ String.intercalate ", " p.allow_prefixes))
  else if p.mode = "denylist" then
    if p.deny_prefixes.any (fun q => pyStartswith normalized q) then
      .error (.permissionError ("command blocked by denylist policy: " ++ command))
    else
      dangerousCheck p command normalized
  else if p.mode ≠ "none" then
    .error (.valueError ("invalid command policy mode: " ++ p.mode))
  else
    dangerousCheck p command normalized

/-- A nonempty string has a nonempty character list. -/
theorem data_ne_nil_of_ne_empty {s : String} (h : s ≠ "") : s.data ≠ [] := by
  intro hd
  apply h
  cases s with
  | mk l => cases hd; rfl

/-- `pyLower` preserves nonemptiness. -/
theorem pyLower_ne_empty {s : String} (h : s ≠ "") : pyLower s ≠ "" := by
  intro he
  apply data_ne_nil_of_ne_empty h
  have : (pyLower s).data = [] := by rw [he]
  simpa [pyLower] using this

/-- A nonempty prefix forces the whole string to be nonempty. -/
theorem ne_empty_of_startswith {s q : String} (hq : q ≠ "")
    (h : pyStartswith s q = true) : s ≠ "" := by
  intro hs
  subst hs
  have hql : q.data ≠ [] := data_ne_nil_of_ne_empty hq
  cases hql' : q.data with
  | nil => exact hql hql'
  | cons c l =>
    rw [pyStartswith, hql'] at h
    simp [List.isPrefixOf] at h

/-- C3: with a recognized mode, a command whose stripped lower-cased form
starts with a (nonempty) configured dangerous prefix is always rejected
with a permission error, whatever the mode and allow/deny lists. -/
theorem validate_dangerous_always_rejects
    (p : CommandPolicy) (command q : String)
    (hmode : p.mode = "none" ∨ p.mode = "allowlist" ∨ p.mode = "denylist")
    (hq : q ∈ p.dangerous_prefixes) (hqne : q ≠ "")
    (hpre : pyStartswith (pyLower (pyStrip command)) q = true) :
    ∃ msg, p.validate command = .error (.permissionError msg) := by
  have hnorm : pyLower (pyStrip command) ≠ "" := ne_empty_of_startswith hqne hpre
  have hdang :
      (p.dangerous_prefixes.any fun r => pyStartswith (pyLower (pyStrip command)) r) = true :=
    List.any_eq_true.mpr ⟨q, hq, hpre⟩
  unfold CommandPolicy.validate dangerousCheck
  simp only [hdang, if_true, hnorm, if_neg]
  split_ifs <;> first
    | exact ⟨_, rfl⟩
    | (rcases hmode with h | h | h <;> simp_all)

/-- Concrete instance of `validate_dangerous_always_rejects`: with the
default dangerous prefixes and mode `none`, `call foo` is rejected. -/
theorem validate_dangerous_always_rejects_witness :
    ∃ msg, (CommandPolicy.mk "none" [] DEFAULT_COMMAND_DENY_PREFIXES
        DEFAULT_COMMAND_DANGEROUS_PREFIXES).validate "call foo" =
      .error (.permissionError msg) :=
  validate_dangerous_always_rejects _ "call foo" "call" (Or.inl rfl)
    (by decide) (by decide) (by decide)

/-- C4: `validate` fails on empty/whitespace-only input; absent a
dangerous-prefix match, allowlist mode accepts exactly the commands
starting with an allow prefix and denylist mode accepts exactly the
commands starting with no deny prefix. -/
theorem validate_mode_characterization
    (p : CommandPolicy) (command : String) :
    (pyStrip command = "" →
      p.validate command = .error (.valueError "command must not be empty"))
    ∧ (p.mode = "allowlist" → pyStrip command ≠ "" →
        (p.dangerous_prefixes.any fun q => pyStartswith (pyLower (pyStrip command)) q) = false →
        (p.validate command = .ok () ↔
          (p.allow_prefixes.any fun q => pyStartswith (pyLower (pyStrip command)) q) = true))
    ∧ (p.mode = "denylist" → pyStrip command ≠ "" →
        (p.dangerous_prefixes.any fun q => pyStartswith (pyLower (pyStrip command)) q) = false →
        (p.validate command = .ok () ↔
          (p.deny_prefixes.any fun q => pyStartswith (pyLower (pyStrip command)) q) = false)) := by
  refine ⟨?_, ?_, ?_⟩
  · intro h
    have hlow : pyLower (pyStrip command) = "" := by rw [h]; rfl
    simp [CommandPolicy.validate, hlow]
  · intro hm hne hdang
    have hnorm : pyLower (pyStrip command) ≠ "" := pyLower_ne_empty hne
    unfold CommandPolicy.validate dangerousCheck
    cases hA : (p.allow_prefixes.any fun q => pyStartswith (pyLower (pyStrip command)) q) <;>
      simp [hm, hnorm, hdang, hA]
  · intro hm hne hdang
    have hnorm : pyLower (pyStrip command) ≠ "" := pyLower_ne_empty hne
    unfold CommandPolicy.validate dangerousCheck
    cases hD : (p.deny_prefixes.any fun q => pyStartswith (pyLower (pyStrip command)) q) <;>
      simp [hm, hnorm, hdang, hD]

/-- Concrete instance of `validate_mode_characterization`: whitespace-only
input fails; `print x` (no allow/deny/dangerous match) is rejected in
allowlist mode and accepted in denylist mode. -/
theorem validate_mode_characterization_witness :
    ((CommandPolicy.mk "denylist" [] [] []).validate "   " =
      .error (.valueError "command must not be empty"))
    ∧ ((CommandPolicy.mk "allowlist" ["info"] [] ["call"]).validate "print x" ≠ .ok ())
    ∧ ((CommandPolicy.mk "denylist" [] ["shell"] ["call"]).validate "print x" = .ok ()) := by
  refine ⟨?_, ?_, ?_⟩
  · exact (validate_mode_characterization _ "   ").1 (by decide)
  · intro hok
    have hiff := (validate_mode_characterization
      (CommandPolicy.mk "allowlist" ["info"] [] ["call"]) "print x").2.1 rfl
      (by decide) (by decide)
    exact absurd (hiff.mp hok) (by decide)
  · exact ((validate_mode_characterization
      (CommandPolicy.mk "denylist" [] ["shell"] ["call"]) "print x").2.2 rfl
      (by decide) (by decide)).mpr (by decide)


/-!
## Output normalization (src/gdb_mcp/gdb_session.py)

`_ANSI_ESCAPE_RE` recognizes, after an ESC character, either a CSI
sequence (an open bracket, then parameter bytes 0x30–0x3f, then
intermediate bytes 0x20–0x2f, then one final byte 0x40–0x7e), an OSC
sequence (a close bracket, then any characters other than BEL and ESC,
terminated by BEL or by ESC plus backslash), or a single character in
0x40–0x5a or 0x5c–0x5f.  Because the three CSI character classes are
pairwise disjoint and the OSC body class excludes both terminator start
characters, the backtracking regex engine is equivalent to the greedy
scanners below.  `re.sub` removes the leftmost match and resumes
scanning after it, which is the single left-to-right pass of
`stripEscapes`.
-/

/-- CSI parameter bytes (0x30–0x3f). -/
def isCsiParam (c : Char) : Bool :=
  '0' ≤ c && c ≤ '?'

/-- CSI intermediate bytes (0x20–0x2f). -/
def isCsiIntermediate (c : Char) : Bool :=
  ' ' ≤ c && c ≤ '/'

/-- CSI final bytes (0x40–0x7e). -/
def isCsiFinal (c : Char) : Bool :=
  '@' ≤ c && c ≤ '~'

/-- Final byte of a two-character escape (0x40–0x5a or 0x5c–0x5f). -/
def isTwoCharFinal (c : Char) : Bool :=
  ('@' ≤ c && c ≤ 'Z') || ('\\' ≤ c && c ≤ '_')

/-- Match the CSI branch against the text following ESC; returns the rest
of the input after the match. -/
def csiMatch : List Char → Option (List Char)
| [] => none
| c :: rest =>
  if c = '[' then
    match (rest.dropWhile isCsiParam).dropWhile isCsiIntermediate with
    | d :: r => if isCsiFinal d then some r else none
    | [] => none
  else none

/-- Scan an OSC body for its terminator (BEL, or ESC plus backslash). -/
def oscScan : List Char → Option (List Char)
| [] => none
| c :: r =>
  if c = '\x07' then some r
  else if c = '\x1b' then
    match r with
    | [] => none
    | d :: r2 => if d = '\\' then some r2 else none
  else oscScan r

/-- Match the OSC branch against the text following ESC. -/
def oscMatch : List Char → Option (List Char)
| [] => none
| c :: rest => if c = ']' then oscScan rest else none

/-- Match the two-character branch against the text following ESC. -/
def twoCharMatch : List Char → Option (List Char)
| [] => none
| c :: rest => if isTwoCharFinal c then some rest else none

/-- Match `_ANSI_ESCAPE_RE` at the head of the input; branches are tried
in the regex's alternation order. -/
def ansiMatch : List Char → Option (List Char)
| [] => none
| c :: rest =>
  if c = '\x1b' then
    match csiMatch rest with
    | some r => some r
    | none =>
      match oscMatch rest with
      | some r => some r
      | none => twoCharMatch rest
  else none

/-- The rest after a CSI match is a strict suffix. -/
theorem csiMatch_suffix {s r : List Char} (h : csiMatch s = some r) :
    r.length < s.length ∧ r <:+ s := by
  cases s with
  | nil => simp [csiMatch] at h
  | cons c rest =>
    rw [csiMatch] at h
    by_cases hc : c = '['
    · rw [if_pos hc] at h
      rcases hd : (rest.dropWhile isCsiParam).dropWhile isCsiIntermediate with _ | ⟨d, r2⟩ <;>
        rw [hd] at h
      · exact absurd h (by simp)
      · dsimp only at h
        by_cases hf : isCsiFinal d = true
        · rw [if_pos hf] at h
          cases h
          have h1 : d :: r <:+ rest := by
            rw [← hd]
            exact (List.dropWhile_suffix _).trans (List.dropWhile_suffix _)
          have h2 : r <:+ rest := (List.suffix_cons d r).trans h1
          refine ⟨?_, h2.trans (List.suffix_cons c rest)⟩
          have := h1.length_le
          simp only [List.length_cons] at this ⊢
          omega
        · rw [if_neg hf] at h; exact absurd h (by simp)
    · rw [if_neg hc] at h; exact absurd h (by simp)

/-- The rest after an OSC body match is a strict suffix. -/
theorem oscScan_suffix {s r : List Char} (h : oscScan s = some r) :
    r.length < s.length ∧ r <:+ s := by
  induction s with
  | nil => simp [oscScan] at h
  | cons c rest ih =>
    simp only [oscScan] at h
    by_cases h7 : c = '\x07'
    · rw [if_pos h7] at h
      cases h
      exact ⟨by simp, List.suffix_cons c r⟩
    · rw [if_neg h7] at h
      by_cases he : c = '\x1b'
      · rw [if_pos he] at h
        rcases rest with _ | ⟨d, r2⟩
        · exact absurd h (by simp)
        · dsimp at h
          by_cases hb : d = '\\'
          · rw [if_pos hb] at h
            cases h
            refine ⟨?_, (List.suffix_cons d r).trans (List.suffix_cons c (d :: r))⟩
            simp [Nat.lt_succ_iff]
          · rw [if_neg hb] at h; exact absurd h (by simp)
      · rw [if_neg he] at h
        rcases ih h with ⟨hl, hs⟩
        exact ⟨Nat.lt_succ_of_lt hl, hs.trans (List.suffix_cons c rest)⟩

/-- The rest after an OSC match is a strict suffix. -/
theorem oscMatch_suffix {s r : List Char} (h : oscMatch s = some r) :
    r.length < s.length ∧ r <:+ s := by
  cases s with
  | nil => simp [oscMatch] at h
  | cons c rest =>
    rw [oscMatch] at h
    by_cases hc : c = ']'
    · rw [if_pos hc] at h
      rcases oscScan_suffix h with ⟨hl, hs⟩
      exact ⟨Nat.lt_succ_of_lt hl, hs.trans (List.suffix_cons c rest)⟩
    · rw [if_neg hc] at h; exact absurd h (by simp)

/-- The rest after a two-character match is a strict suffix. -/
theorem twoCharMatch_suffix {s r : List Char} (h : twoCharMatch s = some r) :
    r.length < s.length ∧ r <:+ s := by
  cases s with
  | nil => simp [twoCharMatch] at h
  | cons c rest =>
    rw [twoCharMatch] at h
    by_cases hc : isTwoCharFinal c = true
    · rw [if_pos hc] at h
      cases h
      exact ⟨by simp, List.suffix_cons c r⟩
    · rw [if_neg hc] at h; exact absurd h (by simp)

/-- The rest after any `_ANSI_ESCAPE_RE` match is a strict suffix. -/
theorem ansiMatch_suffix {s r : List Char} (h : ansiMatch s = some r) :
    r.length < s.length ∧ r <:+ s := by
  cases s with
  | nil => simp [ansiMatch] at h
  | cons c rest =>
    rw [ansiMatch] at h
    by_cases he : c = '\x1b'
    · rw [if_pos he] at h
      rcases h1 : csiMatch rest with _ | r1 <;> rw [h1] at h
      · rcases h2 : oscMatch rest with _ | r2 <;> rw [h2] at h
        · dsimp at h
          rcases twoCharMatch_suffix h with ⟨hl, hs⟩
          exact ⟨Nat.lt_succ_of_lt hl, hs.trans (List.suffix_cons c rest)⟩
        · dsimp at h
          cases h
          rcases oscMatch_suffix h2 with ⟨hl, hs⟩
          exact ⟨Nat.lt_succ_of_lt hl, hs.trans (List.suffix_cons c rest)⟩
      · dsimp at h
        cases h
        rcases csiMatch_suffix h1 with ⟨hl, hs⟩
        exact ⟨Nat.lt_succ_of_lt hl, hs.trans (List.suffix_cons c rest)⟩
    · rw [if_neg he] at h; exact absurd h (by simp)

/-- One left-to-right `re.sub` pass, fuelled by the input length so that
the kernel can evaluate it (`stripEscapes` below fixes the fuel). -/
def stripEscapesFuel : Nat → List Char → List Char
| 0, s => s
| _ + 1, [] => []
| n + 1, c :: rest =>
  match ansiMatch (c :: rest) with
  | some r => stripEscapesFuel n r
  | none => c :: stripEscapesFuel n rest

/-- `_strip_terminal_escapes` / `_ANSI_ESCAPE_RE.sub("", raw)` on the
character list: remove each leftmost match and resume after it. -/
def stripEscapes (s : List Char) : List Char :=
  stripEscapesFuel s.length s

/-- The fuel does not matter once it dominates the input length. -/
theorem stripEscapesFuel_irrel :
    ∀ n m s, s.length ≤ n → s.length ≤ m →
      stripEscapesFuel n s = stripEscapesFuel m s := by
  intro n
  induction n with
  | zero =>
    intro m s hn _
    have : s = [] := List.length_eq_zero.mp (Nat.le_zero.mp hn)
    subst this
    cases m <;> rfl
  | succ n ih =>
    intro m s hn hm
    cases s with
    | nil => cases m <;> rfl
    | cons c rest =>
      cases m with
      | zero => simp at hm
      | succ m' =>
        simp only [stripEscapesFuel]
        rcases ha : ansiMatch (c :: rest) with _ | r <;> dsimp only
        · have hr : rest.length ≤ n := by
            simp only [List.length_cons] at hn; omega
          have hr' : rest.length ≤ m' := by
            simp only [List.length_cons] at hm; omega
          rw [ih m' rest hr hr']
        · have hl := (ansiMatch_suffix ha).1
          have hr : r.length ≤ n := by
            simp only [List.length_cons] at hn hl ⊢; omega
          have hr' : r.length ≤ m' := by
            simp only [List.length_cons] at hm hl ⊢; omega
          rw [ih m' r hr hr']

/-- Unfolding `stripEscapes` on nil. -/
theorem stripEscapes_nil : stripEscapes [] = [] := rfl

/-- Unfolding `stripEscapes` when the head starts a recognized escape. -/
theorem stripEscapes_cons_some {c : Char} {rest r : List Char}
    (h : ansiMatch (c :: rest) = some r) :
    stripEscapes (c :: rest) = stripEscapes r := by
  have hl := (ansiMatch_suffix h).1
  unfold stripEscapes
  simp only [List.length_cons, stripEscapesFuel, h]
  exact stripEscapesFuel_irrel _ _ r (by simp only [List.length_cons] at hl; omega) le_rfl

/-- Unfolding `stripEscapes` when the head starts no recognized escape. -/
theorem stripEscapes_cons_none {c : Char} {rest : List Char}
    (h : ansiMatch (c :: rest) = none) :
    stripEscapes (c :: rest) = c :: stripEscapes rest := by
  unfold stripEscapes
  simp only [List.length_cons, stripEscapesFuel, h]

/-- `_strip_terminal_escapes`. -/
def strip_terminal_escapes (raw : String) : String :=
  ⟨stripEscapes raw.data⟩

/-- Python `text.replace("\r\n", "\n")`: leftmost, non-overlapping. -/
def replaceCRLF : List Char → List Char
| [] => []
| [c] => [c]
| c :: d :: rest =>
  if c = '\r' && d = '\n' then '\n' :: replaceCRLF rest
  else c :: replaceCRLF (d :: rest)

/-- Python `text.replace("\r", "\n")`. -/
def replaceCR : List Char → List Char
| [] => []
| c :: rest => (if c = '\r' then '\n' else c) :: replaceCR rest

/-- `_normalize_output` from `gdb_session.py`: strip escapes, unify line
endings, strip outer whitespace. -/
def normalize_output (raw : String) : String :=
  ⟨stripChars (replaceCR (replaceCRLF (stripEscapes raw.data)))⟩

/-- The input's lines, splitting at CRLF, lone CR, and LF boundaries and
keeping a trailing empty segment (so that joining with LF loses nothing). -/
def eolSplit : List Char → List (List Char)
| [] => [[]]
| [c] =>
  if c = '\r' then [[], []]
  else if c = '\n' then [[], []]
  else [[c]]
| c :: d :: rest =>
  if c = '\r' then
    if d = '\n' then [] :: eolSplit rest else [] :: eolSplit (d :: rest)
  else if c = '\n' then [] :: eolSplit (d :: rest)
  else
    match eolSplit (d :: rest) with
    | [] => [[c]]
    | l :: ls => (c :: l) :: ls

/-- Join segments with a single LF. -/
def joinNL : List (List Char) → List Char
| [] => []
| [l] => l
| l :: ls => l ++ '\n' :: joinNL ls

/-- `eolSplit` never returns the empty list of segments. -/
theorem eolSplit_ne_nil : ∀ s : List Char, eolSplit s ≠ [] := by
  intro s
  match s with
  | [] => simp [eolSplit]
  | [c] =>
    rw [eolSplit]
    split_ifs <;> simp
  | c :: d :: rest =>
    rw [eolSplit]
    split_ifs <;> try simp
    rcases he : eolSplit (d :: rest) with _ | ⟨l, ls⟩ <;> simp

/-- Prepending a character to the first segment commutes with joining. -/
theorem joinNL_cons_head (c : Char) (l : List Char) (ls : List (List Char)) :
    joinNL ((c :: l) :: ls) = c :: joinNL (l :: ls) := by
  cases ls <;> rfl

/-- Joining after a leading empty segment prepends one LF. -/
theorem joinNL_nil_cons (ls : List (List Char)) (h : ls ≠ []) :
    joinNL ([] :: ls) = '\n' :: joinNL ls := by
  cases ls with
  | nil => exact absurd rfl h
  | cons l ls' => rfl

/-- The two sequential `replace` calls of `_normalize_output` compute the
LF-joined list of the input's lines. -/
theorem joinNL_eolSplit : ∀ s : List Char, joinNL (eolSplit s) = replaceCR (replaceCRLF s)
| [] => rfl
| [c] => by
  rw [eolSplit]
  split_ifs with h1 h2
  · subst h1; rfl
  · subst h2; rfl
  · simp [joinNL, replaceCRLF, replaceCR, h1]
| c :: d :: rest => by
  have ih1 := joinNL_eolSplit rest
  have ih2 := joinNL_eolSplit (d :: rest)
  rw [eolSplit]
  by_cases hc : c = '\r'
  · rw [if_pos hc]
    by_cases hd : d = '\n'
    · rw [if_pos hd, joinNL_nil_cons _ (eolSplit_ne_nil rest), ih1]
      subst hc hd
      simp [replaceCRLF, replaceCR]
    · rw [if_neg hd, joinNL_nil_cons _ (eolSplit_ne_nil (d :: rest)), ih2]
      subst hc
      have hb : ('\r' = '\r' && d = '\n') = false := by simp [hd]
      rw [replaceCRLF, hb]
      simp [replaceCR]
  · rw [if_neg hc]
    have hb : (c = '\r' && d = '\n') = false := by simp [hc]
    by_cases hn : c = '\n'
    · rw [if_pos hn, joinNL_nil_cons _ (eolSplit_ne_nil (d :: rest)), ih2]
      subst hn
      rw [replaceCRLF, hb]
      simp [replaceCR]
    · rw [if_neg hn]
      rcases he : eolSplit (d :: rest) with _ | ⟨l, ls⟩
      · exact absurd he (eolSplit_ne_nil (d :: rest))
      · dsimp only
        rw [joinNL_cons_head, ← he, ih2, replaceCRLF, hb]
        simp [hc, replaceCR]

/-- No carriage return survives `replace("\r", "\n")`. -/
theorem replaceCR_no_cr : ∀ s : List Char, '\r' ∉ replaceCR s := by
  intro s
  induction s with
  | nil => simp [replaceCR]
  | cons c rest ih =>
    rw [replaceCR]
    intro hm
    rcases List.mem_cons.mp hm with hm | hm
    · by_cases hc : c = '\r'
      · simp [hc] at hm
      · rw [if_neg hc] at hm
        exact hc hm.symm
    · exact ih hm

/-- Characters of `replaceCRLF s` come from `s` or are LF. -/
theorem mem_replaceCRLF : ∀ {a : Char} {s : List Char},
    a ∈ replaceCRLF s → a ∈ s ∨ a = '\n'
| a, [], h => by simp [replaceCRLF] at h
| a, [c], h => by
  rw [replaceCRLF] at h
  simp at h
  exact Or.inl (by simp [h])
| a, c :: d :: rest, h => by
  rw [replaceCRLF] at h
  by_cases hb : (c = '\r' && d = '\n') = true
  · rw [if_pos hb] at h
    rcases List.mem_cons.mp h with h | h
    · exact Or.inr h
    · rcases mem_replaceCRLF h with h | h
      · exact Or.inl (by simp [h])
      · exact Or.inr h
  · rw [if_neg hb] at h
    rcases List.mem_cons.mp h with h | h
    · exact Or.inl (by simp [h])
    · rcases mem_replaceCRLF h with h | h
      · exact Or.inl (List.mem_cons_of_mem c h)
      · exact Or.inr h

/-- Characters of `replaceCR s` come from `s` or are LF. -/
theorem mem_replaceCR : ∀ {a : Char} {s : List Char},
    a ∈ replaceCR s → a ∈ s ∨ a = '\n'
| a, [], h => by simp [replaceCR] at h
| a, c :: rest, h => by
  rw [replaceCR] at h
  rcases List.mem_cons.mp h with h | h
  · by_cases hc : c = '\r'
    · rw [if_pos hc] at h
      exact Or.inr h
    · rw [if_neg hc] at h
      exact Or.inl (by simp [h])
  · rcases mem_replaceCR h with h | h
    · exact Or.inl (List.mem_cons_of_mem c h)
    · exact Or.inr h

/-- `rstripChars` is a sublist operation. -/
theorem rstripChars_sublist : ∀ s : List Char, List.Sublist (rstripChars s) s := by
  intro s
  induction s with
  | nil => simp [rstripChars]
  | cons c rest ih =>
    rw [rstripChars]
    rcases hr : rstripChars rest with _ | ⟨a, r⟩
    · dsimp only
      split_ifs
      · exact List.nil_sublist _
      · exact (List.nil_sublist rest).cons_cons c
    · rw [hr] at ih
      exact ih.cons_cons c

/-- Stripping outer whitespace is a sublist operation. -/
theorem stripChars_sublist (s : List Char) : List.Sublist (stripChars s) s := by
  have h1 : List.Sublist (lstripChars s) s := List.dropWhile_sublist _
  exact (rstripChars_sublist (lstripChars s)).trans h1

/-- If every ESC character in the input starts a recognized escape
sequence, the single `re.sub` pass removes every ESC character. -/
theorem stripEscapes_no_esc : ∀ s : List Char,
    (∀ t : List Char, t <:+ s → t.head? = some '\x1b' → (ansiMatch t).isSome) →
    '\x1b' ∉ stripEscapes s
| [], _ => by simp [stripEscapes_nil]
| c :: rest, h => by
  rcases ha : ansiMatch (c :: rest) with _ | r
  · rw [stripEscapes_cons_none ha]
    intro hm
    rcases List.mem_cons.mp hm with hm | hm
    · have hs := h (c :: rest) (List.suffix_refl _) (by rw [← hm]; rfl)
      rw [ha] at hs
      simp at hs
    · exact stripEscapes_no_esc rest
        (fun t ht hh => h t (ht.trans (List.suffix_cons c rest)) hh) hm
  · rw [stripEscapes_cons_some ha]
    exact stripEscapes_no_esc r
      (fun t ht hh => h t (ht.trans (ansiMatch_suffix ha).2) hh)
termination_by s _ => s.length
decreasing_by
  · simp [List.length_cons]
  · exact (ansiMatch_suffix ha).1

/-- C10 counterexample: the claim that normalization fully removes every
escape-initiated control sequence is false.  Removing the inner escape
`ESC [ m` from `ESC ESC [ m [ 0 m` splices the leading ESC together with
the following text into the complete CSI sequence `ESC [ 0 m`, which the
single left-to-right pass never revisits: the normalized result is itself
a recognized ANSI escape sequence. -/
theorem normalize_output_escape_counterexample :
    normalize_output "\x1b\x1b[m[0m" = "\x1b[0m"
    ∧ (ansiMatch (normalize_output "\x1b\x1b[m[0m").data).isSome = true := by
  constructor
  · rfl
  · rfl

/-- C10 (amended): normalization always removes every carriage return
(CRLF and lone CR become LF) and returns the outer-stripped LF-joined
text of the escape-stripped input's lines; whenever every ESC character
of the raw input starts a recognized escape sequence (in particular on
escape-free input and on well-formed styled output), the result contains
no ESC character at all.  Unconditional escape-freedom fails (see the
counterexample). -/
theorem normalize_output_amended (raw : String)
    (hwf : ∀ i, i < raw.data.length → (raw.data.drop i).head? = some '\x1b' →
      (ansiMatch (raw.data.drop i)).isSome) :
    '\x1b' ∉ (normalize_output raw).data
    ∧ '\r' ∉ (normalize_output raw).data
    ∧ (normalize_output raw).data = stripChars (joinNL (eolSplit (stripEscapes raw.data))) := by
  have hsuf : ∀ t : List Char, t <:+ raw.data → t.head? = some '\x1b' →
      (ansiMatch t).isSome := by
    intro t ht hh
    rcases ht with ⟨u, hu⟩
    have htne : t ≠ [] := by
      intro h0
      rw [h0] at hh
      simp at hh
    have hdrop : raw.data.drop u.length = t := by
      rw [← hu, List.drop_left]
    have hlt : u.length < raw.data.length := by
      rw [← hu, List.length_append]
      have : 0 < t.length := List.length_pos.mpr htne
      omega
    have := hwf u.length hlt (by rw [hdrop]; exact hh)
    rwa [hdrop] at this
  have hesc : '\x1b' ∉ stripEscapes raw.data := stripEscapes_no_esc raw.data hsuf
  refine ⟨?_, ?_, ?_⟩
  · intro hm
    have hm1 : '\x1b' ∈ replaceCR (replaceCRLF (stripEscapes raw.data)) :=
      (stripChars_sublist _).subset hm
    rcases mem_replaceCR hm1 with hm2 | hm2
    · rcases mem_replaceCRLF hm2 with hm3 | hm3
      · exact hesc hm3
      · exact absurd hm3 (by decide)
    · exact absurd hm2 (by decide)
  · intro hm
    exact replaceCR_no_cr _ ((stripChars_sublist _).subset hm)
  · show stripChars (replaceCR (replaceCRLF (stripEscapes raw.data))) = _
    rw [joinNL_eolSplit]

/-- Concrete instance of `normalize_output_amended`: well-formed styled
output with mixed line endings normalizes to text with no ESC and no CR. -/
theorem normalize_output_amended_witness :
    '\x1b' ∉ (normalize_output "\x1b[32mOk\x1b[m\r\nDone\r").data
    ∧ '\r' ∉ (normalize_output "\x1b[32mOk\x1b[m\r\nDone\r").data :=
  ⟨(normalize_output_amended _ (by decide)).1,
   (normalize_output_amended _ (by decide)).2.1⟩

/-- All characters are Python whitespace. -/
def allWS (l : List Char) : Bool :=
  l.all isPySpace

/-- `rstripChars` erases exactly the all-whitespace lists. -/
theorem rstripChars_eq_nil_iff : ∀ l : List Char, rstripChars l = [] ↔ allWS l = true := by
  intro l
  induction l with
  | nil => simp [rstripChars, allWS]
  | cons c rest ih =>
    rw [rstripChars]
    rcases hr : rstripChars rest with _ | ⟨a, r⟩
    · have hall : allWS rest = true := ih.mp hr
      have hall2 : rest.all isPySpace = true := by simpa [allWS] using hall
      dsimp only
      split_ifs with hc
      · simp [allWS, hc, hall2]
      · simp [allWS, hc]
    · have hnall : allWS rest = false := by
        cases h2 : allWS rest
        · rfl
        · exact absurd ((ih.mpr h2).symm.trans hr) (by simp)
      have hnall2 : rest.all isPySpace = false := by simpa [allWS] using hnall
      dsimp only
      simp [allWS, hnall2]

/-- `rstripChars` is idempotent. -/
theorem rstripChars_idem : ∀ l : List Char, rstripChars (rstripChars l) = rstripChars l := by
  intro l
  induction l with
  | nil => rfl
  | cons c rest ih =>
    rw [rstripChars]
    rcases hr : rstripChars rest with _ | ⟨a, r⟩
    · dsimp only
      split_ifs with hc
      · rfl
      · simp [rstripChars, hc]
    · dsimp only
      rw [rstripChars]
      rw [hr] at ih
      rw [ih]

/-- Dropping a leading whitespace character commutes into `lstripChars`. -/
theorem lstripChars_cons_ws {c : Char} (s : List Char) (hc : isPySpace c = true) :
    lstripChars (c :: s) = lstripChars s := by
  simp [lstripChars, List.dropWhile_cons, hc]

/-- A leading non-whitespace character stops `lstripChars`. -/
theorem lstripChars_cons_not_ws {c : Char} (s : List Char) (hc : isPySpace c = false) :
    lstripChars (c :: s) = c :: s := by
  simp [lstripChars, List.dropWhile_cons, hc]

/-- `lstripChars` is idempotent. -/
theorem lstripChars_idem : ∀ l : List Char, lstripChars (lstripChars l) = lstripChars l := by
  intro l
  induction l with
  | nil => rfl
  | cons c rest ih =>
    by_cases hc : isPySpace c = true
    · rw [lstripChars_cons_ws rest hc, ih]
    · rw [lstripChars_cons_not_ws rest (by simpa using hc),
        lstripChars_cons_not_ws rest (by simpa using hc)]

/-- Stripping is unchanged by a leading whitespace character. -/
theorem stripChars_cons_ws {c : Char} (s : List Char) (hc : isPySpace c = true) :
    stripChars (c :: s) = stripChars s := by
  rw [stripChars, stripChars, lstripChars_cons_ws s hc]

/-- Right-stripping first does not change a full strip. -/
theorem stripChars_rstripChars : ∀ l : List Char, stripChars (rstripChars l) = stripChars l := by
  intro l
  induction l with
  | nil => rfl
  | cons c rest ih =>
    rw [rstripChars]
    rcases hr : rstripChars rest with _ | ⟨a, r⟩
    · have hstriprest : stripChars rest = [] := by
        rw [← ih, hr]
        rfl
      dsimp only
      split_ifs with hc
      · rw [stripChars_cons_ws rest hc, hstriprest]
        rfl
      · have hcf : isPySpace c = false := by simpa using hc
        have e1 : stripChars [c] = [c] := by
          rw [stripChars, lstripChars_cons_not_ws ([] : List Char) hcf]
          simp [rstripChars, hcf]
        have e2 : stripChars (c :: rest) = [c] := by
          rw [stripChars, lstripChars_cons_not_ws rest hcf, rstripChars, hr]
          simp [hcf]
        rw [e1, e2]
    · have e0 : rstripChars (a :: r) = a :: r := by
        rw [← hr]
        exact rstripChars_idem rest
      by_cases hc : isPySpace c = true
      · rw [stripChars_cons_ws _ hc, stripChars_cons_ws _ hc, ← hr, ih]
      · have hcf : isPySpace c = false := by simpa using hc
        have l1 : rstripChars (c :: a :: r) = c :: a :: r := by
          rw [rstripChars, e0]
        have l2 : rstripChars (c :: rest) = c :: a :: r := by
          rw [rstripChars, hr]
        rw [stripChars, stripChars, lstripChars_cons_not_ws _ hcf,
          lstripChars_cons_not_ws _ hcf, l1, l2]

/-- Left-stripping first does not change a full strip. -/
theorem stripChars_lstripChars (l : List Char) :
    stripChars (lstripChars l) = stripChars l := by
  rw [stripChars, stripChars, lstripChars_idem]

/-- `stripChars` is idempotent. -/
theorem stripChars_idem (l : List Char) : stripChars (stripChars l) = stripChars l :=
  calc stripChars (stripChars l) = stripChars (rstripChars (lstripChars l)) := rfl
  _ = stripChars (lstripChars l) := stripChars_rstripChars _
  _ = stripChars l := stripChars_lstripChars _

/-- `lstripChars` passes over an all-whitespace prefix. -/
theorem lstripChars_append_allws : ∀ {w : List Char}, allWS w = true →
    ∀ s : List Char, lstripChars (w ++ s) = lstripChars s := by
  intro w hw s
  induction w with
  | nil => rfl
  | cons c w' ih =>
    simp only [allWS, List.all_cons, Bool.and_eq_true] at hw
    rw [List.cons_append, lstripChars_cons_ws _ hw.1]
    exact ih (by simp [allWS, hw.2])

/-- `lstripChars` stops inside a prefix containing non-whitespace. -/
theorem lstripChars_append_not_allws : ∀ {x : List Char}, allWS x = false →
    ∀ y : List Char, lstripChars (x ++ y) = lstripChars x ++ y := by
  intro x hx y
  induction x with
  | nil => simp [allWS] at hx
  | cons c x' ih =>
    by_cases hc : isPySpace c = true
    · have hx' : allWS x' = false := by
        simp only [allWS, List.all_cons, hc, Bool.true_and] at hx
        exact hx
      rw [List.cons_append, lstripChars_cons_ws _ hc, lstripChars_cons_ws _ hc]
      exact ih hx'
    · rw [List.cons_append, lstripChars_cons_not_ws _ (by simpa using hc),
        lstripChars_cons_not_ws _ (by simpa using hc), List.cons_append]

/-- `rstripChars` passes over an all-whitespace suffix. -/
theorem rstripChars_append_allws (a : List Char) {w : List Char} (hw : allWS w = true) :
    rstripChars (a ++ w) = rstripChars a := by
  induction a with
  | nil =>
    simp only [List.nil_append]
    rw [(rstripChars_eq_nil_iff _).mpr hw]
    rfl
  | cons c a' ih =>
    rw [List.cons_append, rstripChars, ih, rstripChars]

/-- `rstripChars` stops inside a suffix that right-strips nonempty. -/
theorem rstripChars_append_of_ne_nil (a : List Char) {b : List Char}
    (hb : rstripChars b ≠ []) : rstripChars (a ++ b) = a ++ rstripChars b := by
  induction a with
  | nil => simp
  | cons c a' ih =>
    rw [List.cons_append, rstripChars, ih]
    rcases hb' : rstripChars b with _ | ⟨x, r⟩
    · exact absurd hb' hb
    · rcases a' with _ | ⟨y, a''⟩ <;> simp

/-!
## Python `str.splitlines`

Used by `GdbSession.execute` to drop the echoed command line and by
`parse_breakpoints`/`parse_mi_streams` to iterate over lines.
-/

/-- The line-break characters of Python `str.splitlines`. -/
def isLineBreak (c : Char) : Bool :=
  c = '\n' || c = '\r' || c = '\x0b' || c = '\x0c' ||
  c = '\x1c' || c = '\x1d' || c = '\x1e' || c = '\x85' ||
  c = ' ' || c = ' '

/-- Worker for `splitlines`: `acc` holds the current line reversed;
a trailing segment is emitted only when nonempty, CRLF counts as one
boundary. -/
def splitlinesAux : List Char → List Char → List (List Char)
| [], acc => if acc = [] then [] else [acc.reverse]
| [c], acc => if isLineBreak c then [acc.reverse] else [(c :: acc).reverse]
| c :: d :: rest, acc =>
  if c = '\r' && d = '\n' then acc.reverse :: splitlinesAux rest []
  else if isLineBreak c then acc.reverse :: splitlinesAux (d :: rest) []
  else splitlinesAux (d :: rest) (c :: acc)

/-- Python `str.splitlines` on the underlying character list. -/
def splitlinesChars (s : List Char) : List (List Char) :=
  splitlinesAux s []

/-- Python `str.splitlines`. -/
def pySplitlines (s : String) : List String :=
  (splitlinesChars s.data).map fun l => ⟨l⟩

/-- No element of a line contains a line break. -/
def noLB (l : List Char) : Bool :=
  l.all fun c => !isLineBreak c

/-- The accumulator of `splitlinesAux` only prepends onto the first
resulting line. -/
theorem splitlinesAux_acc : ∀ (s : List Char) (acc : List Char),
    splitlinesAux s acc =
      match splitlinesChars s with
      | [] => if acc = [] then [] else [acc.reverse]
      | h :: t => (acc.reverse ++ h) :: t
| [], acc => by
  simp [splitlinesChars, splitlinesAux]
| [c], acc => by
  by_cases hb : isLineBreak c = true
  · simp [splitlinesChars, splitlinesAux, hb]
  · simp [splitlinesChars, splitlinesAux, hb]
| c :: d :: rest, acc => by
  by_cases hcd : (c = '\r' && d = '\n') = true
  · rw [splitlinesAux, if_pos hcd]
    rw [splitlinesChars, splitlinesAux, if_pos hcd]
    simp
  · by_cases hb : isLineBreak c = true
    · rw [splitlinesAux, if_neg (by simp [hcd]), if_pos hb]
      rw [splitlinesChars, splitlinesAux, if_neg (by simp [hcd]), if_pos hb]
      simp
    · rw [splitlinesAux, if_neg (by simp [hcd]), if_neg hb]
      rw [splitlinesChars, splitlinesAux, if_neg (by simp [hcd]), if_neg hb]
      have ih1 := splitlinesAux_acc (d :: rest) (c :: acc)
      have ih2 := splitlinesAux_acc (d :: rest) [c]
      rw [ih1, ih2]
      rcases splitlinesChars (d :: rest) with _ | ⟨h, t⟩
      · simp
      · simp

/-- Every produced line is free of line breaks. -/
theorem splitlinesAux_noLB : ∀ (s : List Char) (acc : List Char),
    (acc.all fun c => !isLineBreak c) = true →
    ∀ l ∈ splitlinesAux s acc, noLB l = true
| [], acc => by
  intro hacc l hl
  rw [splitlinesAux] at hl
  split_ifs at hl with h
  · simp at hl
  · simp at hl
    subst hl
    simpa [noLB, List.all_eq_true] using fun c hc =>
      (List.all_eq_true.mp hacc) c (List.mem_reverse.mp hc)
| [c], acc => by
  intro hacc l hl
  rw [splitlinesAux] at hl
  split_ifs at hl with h
  · simp at hl
    subst hl
    simpa [noLB, List.all_eq_true] using fun x hx =>
      (List.all_eq_true.mp hacc) x (List.mem_reverse.mp hx)
  · simp at hl
    subst hl
    rw [noLB, List.all_eq_true]
    intro x hx
    have hx2 : x ∈ acc ∨ x = c := by simpa using hx
    rcases hx2 with hx | hx
    · simpa using (List.all_eq_true.mp hacc) x hx
    · simp [hx, h]
| c :: d :: rest, acc => by
  intro hacc l hl
  by_cases hcd : (c = '\r' && d = '\n') = true
  · rw [splitlinesAux, if_pos hcd] at hl
    rcases List.mem_cons.mp hl with hl | hl
    · subst hl
      simpa [noLB, List.all_eq_true] using fun x hx =>
        (List.all_eq_true.mp hacc) x (List.mem_reverse.mp hx)
    · exact splitlinesAux_noLB rest [] (by simp) l hl
  · by_cases hb : isLineBreak c = true
    · rw [splitlinesAux, if_neg (by simp [hcd]), if_pos hb] at hl
      rcases List.mem_cons.mp hl with hl | hl
      · subst hl
        simpa [noLB, List.all_eq_true] using fun x hx =>
          (List.all_eq_true.mp hacc) x (List.mem_reverse.mp hx)
      · exact splitlinesAux_noLB (d :: rest) [] (by simp) l hl
    · rw [splitlinesAux, if_neg (by simp [hcd]), if_neg hb] at hl
      refine splitlinesAux_noLB (d :: rest) (c :: acc) ?_ l hl
      simp only [List.all_cons, Bool.and_eq_true]
      exact ⟨by simp [hb], hacc⟩

/-- Every line produced by `splitlinesChars` is free of line breaks. -/
theorem splitlinesChars_noLB (s : List Char) :
    ∀ l ∈ splitlinesChars s, noLB l = true :=
  splitlinesAux_noLB s [] (by simp)

/-- Sublists of break-free lists are break-free. -/
theorem noLB_sublist {a b : List Char} (h : List.Sublist a b) (hb : noLB b = true) :
    noLB a = true := by
  rw [noLB, List.all_eq_true] at hb ⊢
  exact fun x hx => hb x (h.subset hx)

/-- Unfolding `joinNL` on two or more segments. -/
theorem joinNL_cons_cons (l l2 : List Char) (ls : List (List Char)) :
    joinNL (l :: l2 :: ls) = l ++ '\n' :: joinNL (l2 :: ls) := rfl

/-- Unfolding `joinNL` on one segment. -/
theorem joinNL_single (l : List Char) : joinNL [l] = l := rfl

/-- `splitlines` of a break-free line followed by LF and a rest splits
off exactly that line. -/
theorem splitlinesChars_append : ∀ (l : List Char), noLB l = true →
    ∀ r : List Char, splitlinesChars (l ++ '\n' :: r) = l :: splitlinesChars r
| [], _ => by
  intro r
  cases r with
  | nil => rfl
  | cons d r2 =>
    rw [List.nil_append, splitlinesChars, splitlinesAux]
    rw [if_neg (by simp), if_pos (by decide)]
    simp [splitlinesChars]
| a :: l', hl => by
  intro r
  have ha : isLineBreak a = false := by
    have := (List.all_eq_true.mp hl) a (by simp)
    simpa using this
  have har : a ≠ '\r' := fun h => by simp [h, isLineBreak] at ha
  have hl' : noLB l' = true := by
    rw [noLB, List.all_eq_true] at hl ⊢
    exact fun x hx => hl x (List.mem_cons_of_mem a hx)
  rcases hdl : l' ++ '\n' :: r with _ | ⟨d, rest⟩
  · exact absurd hdl (by simp)
  · have e1 : splitlinesChars ((a :: l') ++ '\n' :: r) = splitlinesAux (d :: rest) [a] := by
      rw [List.cons_append, hdl, splitlinesChars, splitlinesAux,
        if_neg (by simp [har]), if_neg (by simp [ha])]
    rw [e1, splitlinesAux_acc (d :: rest) [a], ← hdl,
      splitlinesChars_append l' hl' r]
    simp

/-- A break-free list is its own single line (or none when empty). -/
theorem splitlinesChars_noLB_eq : ∀ l : List Char, noLB l = true →
    splitlinesChars l = if l = [] then [] else [l]
| [], _ => rfl
| [c], hl => by
  have hc : isLineBreak c = false := by
    simpa using (List.all_eq_true.mp hl) c (by simp)
  simp [splitlinesChars, splitlinesAux, hc]
| c :: d :: rest, hl => by
  have hc : isLineBreak c = false := by
    simpa using (List.all_eq_true.mp hl) c (by simp)
  have har : c ≠ '\r' := fun h => by simp [h, isLineBreak] at hc
  have hl' : noLB (d :: rest) = true := by
    rw [noLB, List.all_eq_true] at hl ⊢
    exact fun x hx => hl x (List.mem_cons_of_mem c hx)
  rw [splitlinesChars, splitlinesAux, if_neg (by simp [har]), if_neg (by simp [hc])]
  rw [splitlinesAux_acc (d :: rest) [c],
    splitlinesChars_noLB_eq (d :: rest) hl']
  simp

/-- Lines of an LF-join of break-free lines are among those lines. -/
theorem mem_splitlines_joinNL : ∀ (ls : List (List Char)),
    (∀ l ∈ ls, noLB l = true) →
    ∀ x ∈ splitlinesChars (joinNL ls), x ∈ ls
| [], _ => by
  intro x hx
  simp [joinNL, splitlinesChars, splitlinesAux] at hx
| [l], h => by
  intro x hx
  rw [joinNL_single, splitlinesChars_noLB_eq l (h l (by simp))] at hx
  split_ifs at hx
  · simp at hx
  · simp at hx
    simp [hx]
| l :: l2 :: ls', h => by
  intro x hx
  rw [joinNL_cons_cons, splitlinesChars_append l (h l (by simp))] at hx
  rcases List.mem_cons.mp hx with hx | hx
  · simp [hx]
  · have := mem_splitlines_joinNL (l2 :: ls')
      (fun y hy => h y (List.mem_cons_of_mem l hy)) x hx
    exact List.mem_cons_of_mem l this

/-- Lines of the right-stripped LF-join of break-free lines strip-match
one of those lines. -/
theorem mem_splitlines_rstrip_joinNL : ∀ (ls : List (List Char)),
    (∀ l ∈ ls, noLB l = true) →
    ∀ x ∈ splitlinesChars (rstripChars (joinNL ls)),
      ∃ y ∈ ls, stripChars x = stripChars y
| [], _ => by
  intro x hx
  simp [joinNL, rstripChars, splitlinesChars, splitlinesAux] at hx
| [l], h => by
  intro x hx
  rw [joinNL_single] at hx
  have hnl : noLB (rstripChars l) = true :=
    noLB_sublist (rstripChars_sublist l) (h l (by simp))
  rw [splitlinesChars_noLB_eq _ hnl] at hx
  split_ifs at hx
  · simp at hx
  · simp at hx
    exact ⟨l, by simp, by rw [hx, stripChars_rstripChars]⟩
| l :: l2 :: ls', h => by
  intro x hx
  rw [joinNL_cons_cons] at hx
  rcases hB : rstripChars (joinNL (l2 :: ls')) with _ | ⟨b, rB⟩
  · have hBall : allWS (joinNL (l2 :: ls')) = true := (rstripChars_eq_nil_iff _).mp hB
    have hall : allWS ('\n' :: joinNL (l2 :: ls')) = true := by
      simp only [allWS, List.all_cons, Bool.and_eq_true]
      refine ⟨by simp [isPySpace], by simpa [allWS] using hBall⟩
    rw [rstripChars_append_allws l hall] at hx
    have hnl : noLB (rstripChars l) = true :=
      noLB_sublist (rstripChars_sublist l) (h l (by simp))
    rw [splitlinesChars_noLB_eq _ hnl] at hx
    split_ifs at hx
    · simp at hx
    · simp at hx
      exact ⟨l, by simp, by rw [hx, stripChars_rstripChars]⟩
  · have hBne : rstripChars (joinNL (l2 :: ls')) ≠ [] := by rw [hB]; simp
    have hne : rstripChars ('\n' :: joinNL (l2 :: ls')) ≠ [] := by
      rw [rstripChars, hB]
      simp
    have hstep : rstripChars ('\n' :: joinNL (l2 :: ls')) =
        '\n' :: rstripChars (joinNL (l2 :: ls')) := by
      rw [rstripChars, hB]
    rw [rstripChars_append_of_ne_nil l hne, hstep,
      splitlinesChars_append l (h l (by simp))] at hx
    rcases List.mem_cons.mp hx with hx | hx
    · exact ⟨l, by simp, by rw [hx]⟩
    · rcases mem_splitlines_rstrip_joinNL (l2 :: ls')
        (fun y hy => h y (List.mem_cons_of_mem l hy)) x hx with ⟨y, hy1, hy2⟩
      exact ⟨y, List.mem_cons_of_mem l hy1, hy2⟩

/-- Lines of the fully stripped LF-join of break-free lines strip-match
one of those lines. -/
theorem mem_splitlines_strip_joinNL : ∀ (ls : List (List Char)),
    (∀ l ∈ ls, noLB l = true) →
    ∀ x ∈ splitlinesChars (stripChars (joinNL ls)),
      ∃ y ∈ ls, stripChars x = stripChars y
| [], _ => by
  intro x hx
  simp [joinNL, stripChars, lstripChars, rstripChars,
    splitlinesChars, splitlinesAux] at hx
| [l], h => by
  intro x hx
  rw [joinNL_single] at hx
  have hnl : noLB (stripChars l) = true :=
    noLB_sublist (stripChars_sublist l) (h l (by simp))
  rw [splitlinesChars_noLB_eq _ hnl] at hx
  split_ifs at hx
  · simp at hx
  · simp at hx
    exact ⟨l, by simp, by rw [hx, stripChars_idem]⟩
| l :: l2 :: ls', h => by
  intro x hx
  cases hwl : allWS l with
  | true =>
    have hstrip : stripChars (joinNL (l :: l2 :: ls')) =
        stripChars (joinNL (l2 :: ls')) := by
      rw [joinNL_cons_cons, stripChars, lstripChars_append_allws hwl,
        lstripChars_cons_ws _ (by decide), ← stripChars]
    rw [hstrip] at hx
    rcases mem_splitlines_strip_joinNL (l2 :: ls')
      (fun y hy => h y (List.mem_cons_of_mem l hy)) x hx with ⟨y, hy1, hy2⟩
    exact ⟨y, List.mem_cons_of_mem l hy1, hy2⟩
  | false =>
    have hstrip : stripChars (joinNL (l :: l2 :: ls')) =
        rstripChars (joinNL (lstripChars l :: l2 :: ls')) := by
      rw [joinNL_cons_cons, stripChars, lstripChars_append_not_allws hwl,
        joinNL_cons_cons (lstripChars l) l2 ls']
    rw [hstrip] at hx
    have hall : ∀ y ∈ lstripChars l :: l2 :: ls', noLB y = true := by
      intro y hy
      rcases List.mem_cons.mp hy with hy | hy
      · subst hy
        exact noLB_sublist (List.dropWhile_sublist _) (h l (by simp))
      · exact h y (List.mem_cons_of_mem l hy)
    rcases mem_splitlines_rstrip_joinNL _ hall x hx with ⟨y, hy1, hy2⟩
    rcases List.mem_cons.mp hy1 with hy1 | hy1
    · refine ⟨l, by simp, ?_⟩
      rw [hy2, hy1, stripChars_lstripChars]
    · exact ⟨y, List.mem_cons_of_mem l hy1, hy2⟩

/-!
## GdbSession.execute (src/gdb_mcp/gdb_session.py)

The pexpect exchange is abstracted by an `ExpectOutcome`: after
`sendline(command)`, `expect_exact("(gdb)")` either finds the prompt
(with `child.before` collected so far), times out, or sees EOF because
the process exited.  Session liveness (`child.isalive()`) is tracked in
`SessionState`: `execute` itself never closes the child, so a timeout
leaves liveness untouched while EOF means the process is gone.
-/

/-- `"\n".join(lines)`. -/
def pyJoinNL (ls : List String) : String :=
  ⟨joinNL (ls.map String.data)⟩

/-- The echo-dropping step of `execute`: drop the first line when it
strips to the sent command. -/
def processLines (command : String) (lines : List String) : List String :=
  match lines with
  | [] => []
  | l0 :: rest => if pyStrip l0 = pyStrip command then rest else l0 :: rest

/-- The output post-processing of a successful `execute`: normalize,
split lines, drop the echo line, rejoin, strip. -/
def processOutput (command before : String) : String :=
  pyStrip (pyJoinNL (processLines command (pySplitlines (normalize_output before))))

/-- The exception kinds of `gdb_mcp.exceptions` raised by `execute`
(`GdbCommandTimeoutError` is a `GdbSessionError` in Python; the
constructors keep them apart like the `except` clauses do). -/
inductive GdbError where
  | sessionError (msg : String)
  | commandTimeout (msg : String)
deriving DecidableEq, Repr

/-- The state of a `GdbSession` visible to `execute`. -/
structure SessionState where
  session_id : String
  alive : Bool
deriving DecidableEq, Repr

/-- Result of the pexpect exchange for one command. -/
inductive ExpectOutcome where
  | prompt (before : String)
  | timedOut (before : String)
  | eof (before : String)
deriving DecidableEq, Repr

/-- `GdbSession.execute`: fail if the process is dead; otherwise send the
command and dispatch on the exchange outcome, normalizing partial output
into the raised error message. -/
def GdbSession.execute (st : SessionState) (command : String) (timeout : Nat)
    (outcome : ExpectOutcome) : Except GdbError String × SessionState :=
  if st.alive = false then
    (.error (.sessionError ("GDB session " ++ st.session_id ++ " is not alive")), st)
  else
    match outcome with
    | .prompt before => (.ok (processOutput command before), st)
    | .timedOut before =>
      (.error (.commandTimeout ("Command timeout after " ++ toString timeout ++
        "s for `" ++ command ++ "`. Partial output:\n" ++
        normalize_output before)), st)
    | .eof before =>
      (.error (.sessionError ("gdb session terminated while executing `" ++ command ++
        "`. Partial output:\n" ++ normalize_output before)),
        { st with alive := false })

/-- Strings are equal when their character lists are. -/
theorem string_eq_of_data {a b : String} (h : a.data = b.data) : a = b := by
  cases a; cases b; cases h; rfl

/-- `pyStrip` only looks at the character list. -/
theorem pyStrip_mk (l : List Char) : pyStrip ⟨l⟩ = ⟨stripChars l⟩ := rfl

/-- Members of `pySplitlines s` are break-free lines of `s.data`. -/
theorem mem_pySplitlines {x s : String} (h : x ∈ pySplitlines s) :
    x.data ∈ splitlinesChars s.data ∧ noLB x.data = true := by
  rw [pySplitlines] at h
  rcases List.mem_map.mp h with ⟨xc, hxc, hx⟩
  subst hx
  exact ⟨hxc, splitlinesChars_noLB s.data xc hxc⟩

/-- C6: on a live session, a successful exchange returns exactly the
processed output: the normalized lines with the echoed first line
removed when it strips to the command, joined with LF and stripped; and
whenever the command text does not also occur as a genuine output line,
no line of the returned result strips to the command — the echoed
command line never appears in the result. -/
theorem execute_prompt_echo_removed (st : SessionState) (command before : String)
    (timeout : Nat) (halive : st.alive = true) :
    (GdbSession.execute st command timeout (.prompt before)).1 =
      .ok (processOutput command before)
    ∧ (∀ l0 rest, pySplitlines (normalize_output before) = l0 :: rest →
        pyStrip l0 = pyStrip command →
        processOutput command before = pyStrip (pyJoinNL rest))
    ∧ (∀ l0 rest, pySplitlines (normalize_output before) = l0 :: rest →
        pyStrip l0 ≠ pyStrip command →
        processOutput command before = pyStrip (pyJoinNL (l0 :: rest)))
    ∧ (∀ l0 rest, pySplitlines (normalize_output before) = l0 :: rest →
        pyStrip l0 = pyStrip command →
        (∀ l ∈ rest, pyStrip l ≠ pyStrip command) →
        ∀ x ∈ pySplitlines (processOutput command before),
          pyStrip x ≠ pyStrip command) := by
  refine ⟨?_, ?_, ?_, ?_⟩
  · simp [GdbSession.execute, halive]
  · intro l0 rest h he
    rw [processOutput, h, processLines, if_pos he]
  · intro l0 rest h he
    rw [processOutput, h, processLines, if_neg he]
  · intro l0 rest h he hrest x hx
    have hpe : processOutput command before = pyStrip (pyJoinNL rest) := by
      rw [processOutput, h, processLines, if_pos he]
    rw [hpe] at hx
    rcases mem_pySplitlines hx with ⟨hxmem, _⟩
    have hdata : (pyStrip (pyJoinNL rest)).data =
        stripChars (joinNL (rest.map String.data)) := rfl
    rw [hdata] at hxmem
    have hallnoLB : ∀ lc ∈ rest.map String.data, noLB lc = true := by
      intro lc hlc
      rcases List.mem_map.mp hlc with ⟨r, hr, hrd⟩
      subst hrd
      have hrmem : r ∈ pySplitlines (normalize_output before) := by
        rw [h]
        exact List.mem_cons_of_mem l0 hr
      exact (mem_pySplitlines hrmem).2
    rcases mem_splitlines_strip_joinNL (rest.map String.data) hallnoLB
      x.data hxmem with ⟨yc, hyc, hstripeq⟩
    rcases List.mem_map.mp hyc with ⟨ry, hry, hryd⟩
    subst hryd
    intro heq
    apply hrest ry hry
    have h1 : pyStrip x = pyStrip ry := by
      apply string_eq_of_data
      show stripChars x.data = stripChars ry.data
      exact hstripeq
    rw [← h1, heq]

/-- Concrete instance of `execute_prompt_echo_removed`: the echoed
`info registers` line is dropped and never appears in the result. -/
theorem execute_prompt_echo_removed_witness :
    (GdbSession.execute ⟨"s1", true⟩ "info registers" 10
        (.prompt "info registers\r\nrax 0x0\r\nrbx 0x1")).1 =
      .ok (processOutput "info registers" "info registers\r\nrax 0x0\r\nrbx 0x1")
    ∧ processOutput "info registers" "info registers\r\nrax 0x0\r\nrbx 0x1" =
        pyStrip (pyJoinNL ["rax 0x0", "rbx 0x1"])
    ∧ (∀ x ∈ pySplitlines (processOutput "info registers"
          "info registers\r\nrax 0x0\r\nrbx 0x1"),
        pyStrip x ≠ pyStrip "info registers") := by
  have h := execute_prompt_echo_removed ⟨"s1", true⟩ "info registers"
    "info registers\r\nrax 0x0\r\nrbx 0x1" 10 rfl
  refine ⟨h.1, ?_, ?_⟩
  · exact h.2.1 "info registers" ["rax 0x0", "rbx 0x1"] (by decide) (by decide)
  · exact h.2.2.2 "info registers" ["rax 0x0", "rbx 0x1"] (by decide) (by decide)
      (by decide)

/-- C7: on a live session, a timed-out command raises a command-timeout
error whose message carries the normalized partial output, the session
liveness is untouched (the process still runs) and a subsequent exchange
succeeds normally; if instead the process exits before the next prompt,
a session error carrying the partial output is raised and the session is
dead. -/
theorem execute_timeout_keeps_session_alive (st : SessionState)
    (command next_command before next_before : String) (timeout : Nat)
    (halive : st.alive = true) :
    (∃ pre, (GdbSession.execute st command timeout (.timedOut before)).1 =
        .error (.commandTimeout (pre ++ normalize_output before)))
    ∧ (GdbSession.execute st command timeout (.timedOut before)).2 = st
    ∧ ((GdbSession.execute st command timeout (.timedOut before)).2).alive = true
    ∧ (GdbSession.execute ((GdbSession.execute st command timeout (.timedOut before)).2)
        next_command timeout (.prompt next_before)).1 =
        .ok (processOutput next_command next_before)
    ∧ (∃ pre, (GdbSession.execute st command timeout (.eof before)).1 =
        .error (.sessionError (pre ++ normalize_output before)))
    ∧ ((GdbSession.execute st command timeout (.eof before)).2).alive = false := by
  constructor
  · refine ⟨"Command timeout after " ++ toString timeout ++ "s for `" ++ command ++
      "`. Partial output:\n", ?_⟩
    simp [GdbSession.execute, halive]
  constructor
  · simp [GdbSession.execute, halive]
  constructor
  · simp [GdbSession.execute, halive]
  constructor
  · simp [GdbSession.execute, halive]
  constructor
  · refine ⟨"gdb session terminated while executing `" ++ command ++
      "`. Partial output:\n", ?_⟩
    simp [GdbSession.execute, halive]
  · simp [GdbSession.execute, halive]

/-- Concrete instance of `execute_timeout_keeps_session_alive`. -/
theorem execute_timeout_keeps_session_alive_witness :
    ((GdbSession.execute ⟨"s1", true⟩ "continue" 10 (.timedOut "partial\r\ntext")).2).alive
      = true
    ∧ (∃ pre, (GdbSession.execute ⟨"s1", true⟩ "continue" 10 (.eof "partial\r\ntext")).1 =
        .error (.sessionError (pre ++ normalize_output "partial\r\ntext")))
    ∧ ((GdbSession.execute ⟨"s1", true⟩ "continue" 10
        (.eof "partial\r\ntext")).2).alive = false := by
  have h := execute_timeout_keeps_session_alive ⟨"s1", true⟩ "continue" "x"
    "partial\r\ntext" "out" 10 rfl
  exact ⟨h.2.2.1, h.2.2.2.2.1, h.2.2.2.2.2⟩

/-!
## GdbSessionManager.collect_crash_report and load_core
(src/gdb_mcp/gdb_manager.py)

`collect_crash_report` is embedded over an abstract state-threaded
executor standing for `session.execute`: the executor either returns the
command's output or raises a recoverable exception (one of
`GdbSessionError`, `ValueError`, `OSError`), modelled by its Python type
name and message.  A log-state instantiation recovers the exact command
trace the manager sends to the session.
-/

/-- A recoverable exception from `session.execute`, as caught by
`collect_crash_report`: Python type name and message. -/
structure CmdFailure where
  excType : String
  message : String
deriving DecidableEq, Repr

/-- The inline error marker `f"[error] {type(exc).__name__}: {exc}"`. -/
def errorMarker (e : CmdFailure) : String :=
  "[error] " ++ e.excType ++ ": " ++ e.message

/-- The fixed ordered map of the seven diagnostic commands. -/
def crashCommands (backtrace_limit disasm_count stack_words : Int) :
    List (String × String) :=
  [("program_info", "info program"),
   ("current_frame", "frame"),
   ("thread_info", "info threads"),
   ("backtrace", "backtrace " ++ toString backtrace_limit),
   ("registers", "info registers"),
   ("pc_disassembly", "x/" ++ toString disasm_count ++ "i $pc"),
   ("stack_memory", "x/" ++ toString stack_words ++ "gx $sp")]

/-- The collection loop: run each command in order, catching each
recoverable failure into that field alone. -/
def crashReportLoop {σ : Type} (exec : String → σ → Except CmdFailure String × σ) :
    List (String × String) → σ → List (String × String) × σ
| [], s => ([], s)
| (key, cmd) :: rest, s =>
  let r := exec cmd s
  let value :=
    match r.1 with
    | .ok out => out
    | .error e => errorMarker e
  let t := crashReportLoop exec rest r.2
  ((key, value) :: t.1, t.2)

/-- `GdbSessionManager.collect_crash_report`: validate the three counts
(`_validate_positive_int` raises ValueError), then run the seven
diagnostic commands with per-command fault isolation. -/
def collect_crash_report {σ : Type} (exec : String → σ → Except CmdFailure String × σ)
    (backtrace_limit disasm_count stack_words : Int) (s : σ) :
    Except String (List (String × String) × σ) :=
  if backtrace_limit ≤ 0 then .error "backtrace_limit must be > 0"
  else if disasm_count ≤ 0 then .error "disasm_count must be > 0"
  else if stack_words ≤ 0 then .error "stack_words must be > 0"
  else .ok (crashReportLoop exec (crashCommands backtrace_limit disasm_count stack_words) s)

/-- `GdbSessionManager.load_core`: no validation of the paths; sends
`file`, `core-file` and `backtrace` and collects their outputs. -/
def load_core {σ : Type} (exec : String → σ → String × σ)
    (program core_path : String) (s : σ) : (String × String × String) × σ :=
  let r1 := exec ("file \"" ++ program ++ "\"") s
  let r2 := exec ("core-file \"" ++ core_path ++ "\"") r1.2
  let r3 := exec "backtrace" r2.2
  ((r1.1, r2.1, r3.1), r3.2)

/-- An executor that records every command sent to the session. -/
def logExec (output : String → Except CmdFailure String) :
    String → List String → Except CmdFailure String × List String :=
  fun cmd log => (output cmd, log ++ [cmd])

/-- The loop never drops or reorders fields, whatever the executor does. -/
theorem crashReportLoop_keys {σ : Type}
    (exec : String → σ → Except CmdFailure String × σ) :
    ∀ (cmds : List (String × String)) (s : σ),
      (crashReportLoop exec cmds s).1.map Prod.fst = cmds.map Prod.fst := by
  intro cmds
  induction cmds with
  | nil => intro s; rfl
  | cons kc rest ih =>
    intro s
    cases kc with
    | mk key cmd =>
      rw [crashReportLoop]
      simp only [List.map_cons, List.cons.injEq]
      exact ⟨trivial, ih _⟩

/-- With a state-independent executor the loop computes each field from
its own command alone. -/
theorem crashReportLoop_pure {σ : Type} (f : String → Except CmdFailure String) :
    ∀ (cmds : List (String × String)) (s : σ),
      crashReportLoop (fun c s0 => (f c, s0)) cmds s =
        (cmds.map fun kc =>
          (kc.1, match f kc.2 with
                 | .ok out => out
                 | .error e => errorMarker e), s) := by
  intro cmds
  induction cmds with
  | nil => intro s; rfl
  | cons kc rest ih =>
    intro s
    cases kc with
    | mk key cmd =>
      rw [crashReportLoop]
      simp only [List.map_cons]
      rw [ih s]

/-- C2: with positive counts, `collect_crash_report` never raises: it
returns a report holding exactly the seven fields in their fixed order,
for any executor behaviour; and for a state-independent executor each
field holds its own command's output, or the inline
`[error] <type>: <message>` marker when that command alone failed —
one failing command never disturbs the other fields. -/
theorem collect_crash_report_isolates_failures {σ : Type}
    (exec : String → σ → Except CmdFailure String × σ)
    (backtrace_limit disasm_count stack_words : Int) (s : σ)
    (hbt : 0 < backtrace_limit) (hdis : 0 < disasm_count) (hsw : 0 < stack_words) :
    (∃ rep s', collect_crash_report exec backtrace_limit disasm_count stack_words s =
        .ok (rep, s')
      ∧ rep.map Prod.fst = ["program_info", "current_frame", "thread_info",
          "backtrace", "registers", "pc_disassembly", "stack_memory"])
    ∧ (∀ f : String → Except CmdFailure String,
        collect_crash_report (fun c s0 => (f c, s0))
            backtrace_limit disasm_count stack_words s =
          .ok ((crashCommands backtrace_limit disasm_count stack_words).map
            (fun kc =>
              (kc.1, match f kc.2 with
                     | .ok out => out
                     | .error e => errorMarker e)), s)) := by
  have h1 : ¬ backtrace_limit ≤ 0 := by omega
  have h2 : ¬ disasm_count ≤ 0 := by omega
  have h3 : ¬ stack_words ≤ 0 := by omega
  constructor
  · refine ⟨(crashReportLoop exec
        (crashCommands backtrace_limit disasm_count stack_words) s).1,
      (crashReportLoop exec
        (crashCommands backtrace_limit disasm_count stack_words) s).2, ?_, ?_⟩
    · rw [collect_crash_report, if_neg h1, if_neg h2, if_neg h3]
    · rw [crashReportLoop_keys]
      rfl
  · intro f
    rw [collect_crash_report, if_neg h1, if_neg h2, if_neg h3,
      crashReportLoop_pure]

/-- Concrete instance of `collect_crash_report_isolates_failures`: with
the `frame` command failing (as in the repo's unit test), only the
`current_frame` field carries the error marker; the other six fields
carry their own command's output. -/
theorem collect_crash_report_isolates_failures_witness :
    collect_crash_report
        (fun c (s0 : Unit) =>
          ((if c = "frame" then .error ⟨"ValueError", "no frame selected"⟩
            else .ok ("ok:" ++ c)), s0)) 20 8 16 () =
      .ok ([("program_info", "ok:info program"),
            ("current_frame", "[error] ValueError: no frame selected"),
            ("thread_info", "ok:info threads"),
            ("backtrace", "ok:backtrace 20"),
            ("registers", "ok:info registers"),
            ("pc_disassembly", "ok:x/8i $pc"),
            ("stack_memory", "ok:x/16gx $sp")], ()) := by
  have h := (collect_crash_report_isolates_failures
    (σ := Unit)
    (fun c s0 =>
      ((if c = "frame" then .error ⟨"ValueError", "no frame selected"⟩
        else .ok ("ok:" ++ c)), s0)) 20 8 16 ()
    (by decide) (by decide) (by decide)).2
    (fun c =>
      if c = "frame" then .error ⟨"ValueError", "no frame selected"⟩
      else .ok ("ok:" ++ c))
  rw [h]
  rfl

/-- C1 (code evaluation): the command trace of `collect_crash_report` is
exactly the seven diagnostic commands.  No `frame` capture happens first,
no `frame 0` switch to the innermost frame, and no `frame <n>` restore
happens afterwards — contradicting the spec and the repo's own unit test
`test_collect_crash_report_collects_from_top_frame_and_restores_selection`,
which expects the trace to start with `frame`, `frame 0` and to end with
a restoring `frame 3`. -/
theorem collect_crash_report_sends_no_frame_commands :
    (collect_crash_report (logExec fun c => .ok ("ok:" ++ c)) 20 8 16 []).map Prod.snd
      = .ok ["info program", "frame", "info threads", "backtrace 20",
             "info registers", "x/8i $pc", "x/16gx $sp"]
    ∧ "frame 0" ∉ ["info program", "frame", "info threads", "backtrace 20",
             "info registers", "x/8i $pc", "x/16gx $sp"]
    ∧ "frame 3" ∉ ["info program", "frame", "info threads", "backtrace 20",
             "info registers", "x/8i $pc", "x/16gx $sp"]
    ∧ (["info program", "frame", "info threads", "backtrace 20",
             "info registers", "x/8i $pc", "x/16gx $sp"] : List String).head? ≠
        some "frame" := by
  refine ⟨?_, by decide, by decide, by decide⟩
  rfl

/-- C5 (code evaluation): `load_core` performs no validation at all: a
core path containing whitespace is quoted into the `core-file` command
and sent to the debugger, with no error raised beforehand —
contradicting the spec and the repo's own unit test
`test_load_core_rejects_whitespace_path`, which expects a `ValueError`
before any command is sent. -/
theorem load_core_sends_whitespace_core_path :
    load_core (fun c log => ("ok", log ++ [c])) "/tmp/prog" "/tmp/demo core" [] =
      (("ok", "ok", "ok"),
       ["file \"/tmp/prog\"", "core-file \"/tmp/demo core\"", "backtrace"]) := rfl

/-!
## parse_breakpoints (src/gdb_mcp/parsing.py)

The regexes are embedded as character scanners:
`_BREAKPOINT_LINE_RE` anchors on optional whitespace, one or more
digits, then a whitespace character; `_HEX_RE` finds the leftmost
`0x`-prefixed hex run; `_SOURCE_AT_RE` finds, leftmost first, a
word-boundary `at`, one whitespace, a lazy nonempty file group, a colon,
a greedy digit run, and a whitespace-or-end lookahead.  The lazy group
extends one character at a time exactly when the close at the current
colon fails, mirroring the backtracking engine.
-/

/-- Digits followed (eventually) by a whitespace character, after the
first digit: the `\d+\s` part of `_BREAKPOINT_LINE_RE`. -/
def bpHeadAfter : List Char → Bool
| [] => false
| c :: rest => if c.isDigit then bpHeadAfter rest else isPySpace c

/-- One digit then `bpHeadAfter`: the `\d+\s` part needs one digit. -/
def bpHeadDigits : List Char → Bool
| [] => false
| c :: rest => if c.isDigit then bpHeadAfter rest else false

/-- `_BREAKPOINT_LINE_RE.match(line)`: `^\s*(\d+)\s+`. -/
def bpHeadMatch (l : List Char) : Bool :=
  bpHeadDigits (l.dropWhile isPySpace)

/-- `line.split()[0]`: the first whitespace-delimited token. -/
def firstToken (l : List Char) : List Char :=
  (l.dropWhile isPySpace).takeWhile (fun c => !isPySpace c)

/-- `int(...)` on a digit token. -/
def natFromDigits (ds : List Char) : Nat :=
  ds.foldl (fun n c => n * 10 + (c.toNat - 48)) 0

/-- Substring containment (Python `in`). -/
def listContains (sub : List Char) : List Char → Bool
| [] => sub.isEmpty
| c :: rest => sub.isPrefixOf (c :: rest) || listContains sub rest

/-- Hexadecimal digit. -/
def isHexDigit (c : Char) : Bool :=
  c.isDigit || ('a' ≤ c && c ≤ 'f') || ('A' ≤ c && c ≤ 'F')

/-- `_HEX_RE` match at the current position: `0x[0-9a-fA-F]+`. -/
def hexMatchAt (l : List Char) : Option (List Char) :=
  match l with
  | c0 :: c1 :: rest =>
    if c0 = '0' && c1 = 'x' then
      let ds := rest.takeWhile isHexDigit
      if ds.isEmpty then none else some ('0' :: 'x' :: ds)
    else none
  | _ => none

/-- `_HEX_RE.search`: leftmost `0x`-prefixed hex run. -/
def hexSearch : List Char → Option (List Char)
| [] => none
| c :: rest =>
  match hexMatchAt (c :: rest) with
  | some m => some m
  | none => hexSearch rest

/-- Python regex word character (ASCII scope). -/
def isWordChar (c : Char) : Bool :=
  c.isAlphanum || c = '_'

/-- The `(?=\s|$)` lookahead after the line-number digits. -/
def okAfterDigits : List Char → Bool
| [] => true
| c :: _ => isPySpace c

/-- The lazy `(.+?):(\d+)(?=\s|$)` tail of `_SOURCE_AT_RE`: `acc` holds
the file group so far (reversed, nonempty); at each position first try
to close at a colon with a nonempty greedy digit run and the lookahead,
otherwise extend the file group by one (non-newline) character. -/
def lazyFile (acc : List Char) : List Char → Option (List Char × Nat)
| [] => none
| c :: rest =>
  if c = ':' then
    let ds := rest.takeWhile Char.isDigit
    if !ds.isEmpty && okAfterDigits (rest.drop ds.length) then
      some (acc.reverse, natFromDigits ds)
    else lazyFile (c :: acc) rest
  else if c = '\n' then none
  else lazyFile (c :: acc) rest

/-- `_SOURCE_AT_RE` match at the current position (after the boundary
check): `at`, one whitespace, then the lazy tail with a first file
character. -/
def headLocMatch : List Char → Option (List Char × Nat)
| a :: t :: w :: c1 :: rest =>
  if a = 'a' && t = 't' && isPySpace w && c1 ≠ '\n' then lazyFile [c1] rest
  else none
| _ => none

/-- `_SOURCE_AT_RE.search`: leftmost position whose previous character is
not a word character (`\b` before the word `at`). -/
def locSearchAux (prev : Option Char) : List Char → Option (List Char × Nat)
| [] => none
| c :: rest =>
  let bOk :=
    match prev with
    | none => true
    | some p => !isWordChar p
  match (if bOk then headLocMatch (c :: rest) else none) with
  | some r => some r
  | none => locSearchAux (some c) rest

/-- `_SOURCE_AT_RE.search` from the start of the text. -/
def locSearch (l : List Char) : Option (List Char × Nat) :=
  locSearchAux none l

/-- The breakpoint record assembled by `parse_breakpoints` (`kind`,
`address`, `file`, `line` are only present when detected). -/
structure BreakpointRecord where
  number : Nat
  raw : String
  kind : Option String
  enabled : Bool
  address : Option String
  file : Option String
  line : Option Nat
deriving DecidableEq, Repr

/-- The record built from one grouped entry: strip and join the head and
continuation lines, take the id from the head's first token, classify
kind/enabled from the spaced lower-cased head, the address from the
head, and the source location from the combined text. -/
def buildRecord (head : String) (tail : List String) : BreakpointRecord :=
  let combined := String.intercalate " "
    (((head :: tail).map pyStrip).filter (fun p => p ≠ ""))
  let lowered := " " ++ pyLower head ++ " "
  { number := natFromDigits (firstToken head.data)
    raw := combined
    kind :=
      if listContains " breakpoint ".data lowered.data then some "breakpoint"
      else if listContains " watchpoint ".data lowered.data then some "watchpoint"
      else if listContains " catchpoint ".data lowered.data then some "catchpoint"
      else none
    enabled := listContains " y ".data lowered.data
    address := (hexSearch head.data).map fun m => (⟨m⟩ : String)
    file := (locSearch combined.data).map fun r => (⟨r.1⟩ : String)
    line := (locSearch combined.data).map Prod.snd }

/-- The grouping loop of `parse_breakpoints`: an id line opens a record,
non-id lines are appended to the open record, blank lines are skipped. -/
def bpGroup : List String → Option (String × List String) → List (String × List String)
| [], none => []
| [], some cur => [cur]
| raw :: rest, cur =>
  let line := pyRstrip raw
  if line = "" then bpGroup rest cur
  else if bpHeadMatch line.data then
    match cur with
    | none => bpGroup rest (some (line, []))
    | some c => c :: bpGroup rest (some (line, []))
  else
    match cur with
    | none => bpGroup rest none
    | some ht => bpGroup rest (some (ht.1, ht.2 ++ [line]))

/-- `parse_breakpoints` from `parsing.py`. -/
def parse_breakpoints (output : String) : List BreakpointRecord :=
  (bpGroup (pySplitlines output) none).map fun g => buildRecord g.1 g.2

/-- A digit is not Python whitespace. -/
theorem isPySpace_of_digit {c : Char} (h : c.isDigit = true) : isPySpace c = false := by
  by_contra hns
  have h2 : isPySpace c = true := by
    cases h3 : isPySpace c
    · exact absurd h3 hns
    · rfl
  simp only [isPySpace, Bool.or_eq_true, decide_eq_true_eq] at h2
  repeat' rcases h2 with h2 | h2
  all_goals exact absurd h (by decide)

/-- Within a matched `\d+\s` run, token splitting stops exactly where the
digits stop. -/
theorem takeWhile_not_space_eq_digits :
    ∀ r : List Char, bpHeadAfter r = true →
      r.takeWhile (fun c => !isPySpace c) = r.takeWhile Char.isDigit := by
  intro r
  induction r with
  | nil => intro h; rfl
  | cons c rest ih =>
    intro h
    rw [bpHeadAfter] at h
    by_cases hd : c.isDigit = true
    · rw [if_pos hd] at h
      rw [List.takeWhile_cons, List.takeWhile_cons]
      simp only [isPySpace_of_digit hd, hd, Bool.not_false, if_true]
      rw [ih h]
    · rw [if_neg hd] at h
      rw [List.takeWhile_cons, List.takeWhile_cons]
      simp [h, Bool.of_not_eq_true hd]

/-- On a line matching `_BREAKPOINT_LINE_RE`, `line.split()[0]` is the
leading digit run of the anchor. -/
theorem firstToken_of_bpHead {l : List Char} (h : bpHeadMatch l = true) :
    firstToken l = (l.dropWhile isPySpace).takeWhile Char.isDigit := by
  rw [bpHeadMatch] at h
  rw [firstToken]
  rcases hdrop : l.dropWhile isPySpace with _ | ⟨c, rest⟩
  · rfl
  · rw [hdrop, bpHeadDigits] at h
    by_cases hd : c.isDigit = true
    · rw [if_pos hd] at h
      rw [List.takeWhile_cons, List.takeWhile_cons]
      simp only [isPySpace_of_digit hd, hd, Bool.not_false, if_true]
      rw [takeWhile_not_space_eq_digits rest h]
    · rw [if_neg hd] at h
      exact absurd h (by simp)

/-- Grouping with an open record and only continuation lines appends all
nonblank right-stripped lines to that record. -/
theorem bpGroup_continuations :
    ∀ (ls : List String) (h : String) (t : List String),
      (∀ c ∈ ls, bpHeadMatch (pyRstrip c).data = false) →
      bpGroup ls (some (h, t)) =
        [(h, t ++ (ls.map pyRstrip).filter (fun l => l ≠ ""))] := by
  intro ls
  induction ls with
  | nil => intro h t _; simp [bpGroup]
  | cons c rest ih =>
    intro h t hc
    rw [bpGroup]
    by_cases hline : pyRstrip c = ""
    · rw [if_pos hline, ih h t (fun x hx => hc x (List.mem_cons_of_mem c hx))]
      simp [hline]
    · rw [if_neg hline, if_neg (by simp [hc c (by simp)])]
      rw [ih h (t ++ [pyRstrip c]) (fun x hx => hc x (List.mem_cons_of_mem c hx))]
      simp [hline]

/-- C8: an output whose first line matches the id anchor and whose other
lines are continuation (non-id) lines parses to exactly one record: the
head and continuation lines are merged, the record's number is the
leading digit run of the id line, and its file/line are extracted by the
location regex from the combined text. -/
theorem parse_breakpoints_merges_wrapped (output l0 : String) (cont : List String)
    (hsplit : pySplitlines output = l0 :: cont)
    (hhead : bpHeadMatch (pyRstrip l0).data = true)
    (hcont : ∀ c ∈ cont, bpHeadMatch (pyRstrip c).data = false) :
    parse_breakpoints output =
      [buildRecord (pyRstrip l0) ((cont.map pyRstrip).filter (fun l => l ≠ ""))]
    ∧ (parse_breakpoints output).length = 1
    ∧ (∀ r ∈ parse_breakpoints output,
        r.number =
          natFromDigits (((pyRstrip l0).data.dropWhile isPySpace).takeWhile Char.isDigit)
        ∧ r.file = (locSearch r.raw.data).map (fun p => (⟨p.1⟩ : String))
        ∧ r.line = (locSearch r.raw.data).map Prod.snd) := by
  have hl0 : pyRstrip l0 ≠ "" := by
    intro h0
    rw [h0] at hhead
    exact absurd hhead (by decide)
  have hparse : parse_breakpoints output =
      [buildRecord (pyRstrip l0) ((cont.map pyRstrip).filter (fun l => l ≠ ""))] := by
    rw [parse_breakpoints, hsplit, bpGroup, if_neg hl0, if_pos hhead]
    rw [bpGroup_continuations cont (pyRstrip l0) [] hcont]
    simp
  refine ⟨hparse, by rw [hparse]; rfl, ?_⟩
  intro r hr
  rw [hparse] at hr
  simp only [List.mem_singleton] at hr
  subst hr
  refine ⟨?_, rfl, rfl⟩
  show natFromDigits (firstToken (pyRstrip l0).data) = _
  rw [firstToken_of_bpHead hhead]

/-- Concrete instance of `parse_breakpoints_merges_wrapped`: a two-line
wrapped-location entry yields one record with the correct id, file and
line. -/
theorem parse_breakpoints_merges_wrapped_witness :
    (parse_breakpoints
        "1   breakpoint   keep y   0x401136 in fn\n      at /tmp/main.c:42").map
        (fun r => (r.number, r.file, r.line, r.kind, r.enabled)) =
      [(1, some "/tmp/main.c", some 42, some "breakpoint", true)] := by
  have h := parse_breakpoints_merges_wrapped
    "1   breakpoint   keep y   0x401136 in fn\n      at /tmp/main.c:42"
    "1   breakpoint   keep y   0x401136 in fn" ["      at /tmp/main.c:42"]
    (by decide) (by decide) (by decide)
  rw [h.1]
  rfl

/-!
## parse_mi_streams (src/gdb_mcp/parsing.py)

The MI records entering `parse_mi_streams` come from the external
`pygdbmi` parser (`_collect_mi_records`); the merging logic is embedded
over already-parsed records carrying a `type`, an optional `message` tag
and a payload that is a string for stream records (the `isinstance`
check keeps non-string payloads unmerged).
-/

/-- A parsed record payload: a string, or anything else (`isinstance`
guard in the source). -/
inductive MiPayload where
  | str (s : String)
  | nonstr
deriving DecidableEq, Repr

/-- Whether the payload is a string. -/
def MiPayload.isStr : MiPayload → Bool
| .str _ => true
| .nonstr => false

/-- The fields of a parsed MI record used by `parse_mi_streams`. -/
structure MiRecord where
  type : String
  message : Option String
  payload : MiPayload
deriving DecidableEq, Repr

/-- `_MI_STREAM_TYPES`. -/
def MI_STREAM_TYPES : List String :=
  ["console", "log", "target"]

/-- `_MI_STRUCTURED_TYPES`. -/
def MI_STRUCTURED_TYPES : List String :=
  ["result", "notify", "exec", "status"]

/-- Same stream class and message tag. -/
def sameStream (a b : MiRecord) : Bool :=
  a.type == b.type && a.message == b.message

/-- The merging loop of `parse_mi_streams`: `cur` is the record under
construction (the mutable `merged[-1]` of the source). -/
def mergeStreamsAux (cur : MiRecord) : List MiRecord → List MiRecord
| [] => [cur]
| r :: rest =>
  if r.type == cur.type && r.message == cur.message then
    match cur.payload, r.payload with
    | .str a, .str b => mergeStreamsAux { cur with payload := .str (a ++ b) } rest
    | _, _ => cur :: mergeStreamsAux r rest
  else cur :: mergeStreamsAux r rest

/-- `parse_mi_streams`: keep the stream-class records and merge adjacent
records of the same class and tag. -/
def parse_mi_streams (records : List MiRecord) : List MiRecord :=
  match records.filter (fun r => MI_STREAM_TYPES.contains r.type) with
  | [] => []
  | r :: rest => mergeStreamsAux r rest

/-- Payload text of a record (empty for non-strings). -/
def payloadStr : MiPayload → String
| .str s => s
| .nonstr => ""

/-- In-order concatenation of the payloads of a run. -/
def payloadConcat (run : List MiRecord) : String :=
  run.foldr (fun x acc => payloadStr x.payload ++ acc) ""

/-- The single record replacing the run `r :: run`. -/
def combineRun (r : MiRecord) (run : List MiRecord) : MiRecord :=
  { r with payload := .str (payloadStr r.payload ++ payloadConcat run) }

/-- Specification shape of stream merging: split off each maximal run of
adjacent records sharing type and tag, concatenate its payloads in
order.  Fuelled by the list length so the kernel can evaluate it. -/
def mergedRunsFuel : Nat → List MiRecord → List MiRecord
| 0, l => l
| _ + 1, [] => []
| n + 1, r :: rest =>
  combineRun r (rest.takeWhile (fun s => sameStream r s)) ::
    mergedRunsFuel n (rest.dropWhile (fun s => sameStream r s))

/-- Maximal-run merging with enough fuel. -/
def mergedRuns (l : List MiRecord) : List MiRecord :=
  mergedRunsFuel l.length l

/-- The fuel does not matter once it dominates the length. -/
theorem mergedRunsFuel_irrel :
    ∀ n m l, l.length ≤ n → l.length ≤ m →
      mergedRunsFuel n l = mergedRunsFuel m l := by
  intro n
  induction n with
  | zero =>
    intro m l hn _
    have : l = [] := List.length_eq_zero.mp (Nat.le_zero.mp hn)
    subst this
    cases m <;> rfl
  | succ n ih =>
    intro m l hn hm
    cases l with
    | nil => cases m <;> rfl
    | cons r rest =>
      cases m with
      | zero => simp at hm
      | succ m' =>
        simp only [mergedRunsFuel]
        have hd : (rest.dropWhile (fun s => sameStream r s)).length ≤ rest.length :=
          (List.dropWhile_sublist _).length_le
        refine congrArg _ (ih m' _ ?_ ?_)
        · simp only [List.length_cons] at hn; omega
        · simp only [List.length_cons] at hm; omega

/-- Unfolding `mergedRuns` on a cons. -/
theorem mergedRuns_cons (r : MiRecord) (rest : List MiRecord) :
    mergedRuns (r :: rest) =
      combineRun r (rest.takeWhile (fun s => sameStream r s)) ::
        mergedRuns (rest.dropWhile (fun s => sameStream r s)) := by
  rw [mergedRuns, List.length_cons, mergedRunsFuel]
  refine congrArg _ (mergedRunsFuel_irrel _ _ _ ?_ le_rfl)
  exact (List.dropWhile_sublist _).length_le

/-- Appending the empty payload tail is the identity on string-payload
records. -/
theorem combineRun_nil {r : MiRecord} {s : String} (h : r.payload = .str s) :
    combineRun r [] = r := by
  cases r with
  | mk t m p =>
    simp only at h
    subst h
    simp [combineRun, payloadConcat, payloadStr]


/-- `==` is symmetric for lawful instances. -/
theorem beq_swap {α : Type} [BEq α] [LawfulBEq α] (a b : α) : (a == b) = (b == a) := by
  by_cases h : a = b
  · simp [h]
  · have h' : ¬ b = a := fun hh => h hh.symm
    simp [h, h']

/-- The merging loop realizes maximal-run merging, provided every stream
payload is a string. -/
theorem mergeStreamsAux_eq_mergedRuns :
    ∀ (rest : List MiRecord) (cur : MiRecord),
      cur.payload.isStr = true →
      (∀ r ∈ rest, r.payload.isStr = true) →
      mergeStreamsAux cur rest =
        combineRun cur (rest.takeWhile (fun s => sameStream cur s)) ::
          mergedRuns (rest.dropWhile (fun s => sameStream cur s)) := by
  intro rest
  induction rest with
  | nil =>
    intro cur hcur _
    rcases hp : cur.payload with s | _
    · rw [mergeStreamsAux, List.takeWhile_nil, List.dropWhile_nil, combineRun_nil hp]
      rfl
    · rw [hp] at hcur
      exact absurd hcur (by decide)
  | cons r rs ih =>
    intro cur hcur hall
    have hr : r.payload.isStr = true := hall r (by simp)
    rw [mergeStreamsAux]
    by_cases hk : (r.type == cur.type && r.message == cur.message) = true
    · have hks : sameStream cur r = true := by
        rw [sameStream, beq_swap cur.type r.type, beq_swap cur.message r.message]
        exact hk
      rw [if_pos hk]
      rcases hpc : cur.payload with a | _
      · rcases hpr : r.payload with b | _
        · dsimp only
          rw [ih { cur with payload := MiPayload.str (a ++ b) }
            (by simp [MiPayload.isStr])
            (fun x hx => hall x (List.mem_cons_of_mem r hx))]
          rw [List.takeWhile_cons_of_pos (by simpa using hks),
            List.dropWhile_cons_of_pos (by simpa using hks)]
          have hfun : (fun s => sameStream { cur with payload := MiPayload.str (a ++ b) } s)
              = fun s => sameStream cur s := rfl
          rw [hfun]
          refine congrArg (fun z => z :: _) ?_
          cases cur with
          | mk t m p =>
            simp only at hpc
            subst hpc
            simp [combineRun, payloadConcat, payloadStr, hpr, String.append_assoc]
        · rw [hpr] at hr
          exact absurd hr (by decide)
      · rw [hpc] at hcur
        exact absurd hcur (by decide)
    · have hks : sameStream cur r = false := by
        cases h2 : sameStream cur r
        · rfl
        · rw [sameStream, beq_swap cur.type r.type, beq_swap cur.message r.message] at h2
          exact absurd h2 hk
      rw [if_neg hk]
      rw [ih r hr (fun x hx => hall x (List.mem_cons_of_mem r hx))]
      rw [List.takeWhile_cons_of_neg (by simp [hks]),
        List.dropWhile_cons_of_neg (by simp [hks])]
      rcases hpc : cur.payload with a | _
      · rw [combineRun_nil hpc, mergedRuns_cons]
      · rw [hpc] at hcur
        exact absurd hcur (by decide)

/-- C9: on parsed records whose stream payloads are strings (as pygdbmi
produces for console/log/target records), `parse_mi_streams` merges each
maximal run of adjacent stream records sharing type and message tag into
one record whose payload is the in-order concatenation of the run's
payloads, preserving the relative order of runs. -/
theorem parse_mi_streams_merges_runs (records : List MiRecord)
    (hstr : ∀ r ∈ records.filter (fun r => MI_STREAM_TYPES.contains r.type),
      r.payload.isStr = true) :
    parse_mi_streams records =
      mergedRuns (records.filter (fun r => MI_STREAM_TYPES.contains r.type)) := by
  rw [parse_mi_streams]
  rcases hf : records.filter (fun r => MI_STREAM_TYPES.contains r.type) with _ | ⟨r, rest⟩
  · rw [hf]
    rfl
  · rw [hf] at hstr
    rw [hf]
    dsimp only
    rw [mergeStreamsAux_eq_mergedRuns rest r (hstr r (by simp))
      (fun x hx => hstr x (List.mem_cons_of_mem r hx))]
    rw [mergedRuns_cons]

/-- Concrete instance of `parse_mi_streams_merges_runs`: three
consecutive console records merge into one whose payload is the in-order
concatenation of the three payloads. -/
theorem parse_mi_streams_merges_runs_witness :
    parse_mi_streams
      [⟨"console", some "console", .str "Hello "⟩, ⟨"console", some "console", .str "wor"⟩,
       ⟨"console", some "console", .str "ld\n"⟩] =
      [⟨"console", some "console", .str "Hello world\n"⟩] := by
  rw [parse_mi_streams_merges_runs _ (by decide)]
  rfl
